import Mathlib

/-!
Verification development for the IsoCor correction engine (`IsoCor.pyw`).

The numerical core of IsoCor is embedded shallowly: Python floats are
modelled by exact rationals, `numpy.convolve` by a recursive full discrete
convolution on `List ℚ`, Python dictionaries by association lists in key
order, and the scipy L-BFGS-B optimizer (external to the repository) by an
explicit solver parameter together with the stationarity contract of the
specification.
-/

namespace IsoCor

/-! ### Pointwise list arithmetic -/

/-- Pointwise addition of two rational lists; the shorter list is
implicitly padded with zeros (length of the result is the max length). -/
def addL : List ℚ → List ℚ → List ℚ
  | [], ys => ys
  | x :: xs, [] => x :: xs
  | x :: xs, y :: ys => (x + y) :: addL xs ys

/-- Full discrete convolution, as computed by `numpy.convolve` in full mode:
`(conv u v) k = ∑ i, u i * v (k - i)`.  Defined recursively on the first
argument. -/
def conv : List ℚ → List ℚ → List ℚ
  | [], _ => []
  | a :: as, v => addL (v.map (fun q => a * q)) (0 :: conv as v)

@[simp] theorem addL_nil_left (ys : List ℚ) : addL [] ys = ys := rfl

@[simp] theorem addL_nil_right (xs : List ℚ) : addL xs [] = xs := by
  cases xs <;> rfl

@[simp] theorem addL_cons (x y : ℚ) (xs ys : List ℚ) :
    addL (x :: xs) (y :: ys) = (x + y) :: addL xs ys := rfl

theorem addL_getD (xs ys : List ℚ) (k : ℕ) :
    (addL xs ys).getD k 0 = xs.getD k 0 + ys.getD k 0 := by
  induction xs generalizing ys k with
  | nil => simp [addL]
  | cons x xs ih =>
    cases ys with
    | nil => simp [addL]
    | cons y ys =>
      cases k with
      | zero => simp [addL]
      | succ k => simpa [addL] using ih ys k

theorem addL_sum (xs ys : List ℚ) : (addL xs ys).sum = xs.sum + ys.sum := by
  induction xs generalizing ys with
  | nil => simp [addL]
  | cons x xs ih =>
    cases ys with
    | nil => simp [addL]
    | cons y ys => simp [addL, ih]; ring

theorem map_mul_getD (a : ℚ) (v : List ℚ) (k : ℕ) :
    ((v.map (fun q => a * q)).getD k 0) = a * v.getD k 0 := by
  induction v generalizing k with
  | nil => simp
  | cons x xs ih =>
    cases k with
    | zero => simp
    | succ k => simpa using ih k

theorem map_mul_sum (a : ℚ) (v : List ℚ) :
    (v.map (fun q => a * q)).sum = a * v.sum := by
  induction v with
  | nil => simp
  | cons x xs ih => simp [ih]; ring

/-- Entry-wise characterization of `conv`: it agrees with the textbook
full discrete convolution `(u ⊛ v) k = ∑_{i ≤ k} u i * v (k - i)`. -/
theorem conv_getD (u v : List ℚ) (k : ℕ) :
    (conv u v).getD k 0 = ∑ i ∈ Finset.range (k + 1), u.getD i 0 * v.getD (k - i) 0 := by
  induction u generalizing k with
  | nil =>
    simp [conv]
  | cons a as ih =>
    rw [conv, addL_getD, map_mul_getD]
    cases k with
    | zero => simp
    | succ k =>
      rw [Finset.sum_range_succ']
      simp only [List.getD_cons_succ, List.getD_cons_zero, Nat.succ_sub_succ, Nat.sub_zero]
      rw [ih k, add_comm]

theorem conv_sum (u v : List ℚ) : (conv u v).sum = u.sum * v.sum := by
  induction u with
  | nil => simp [conv]
  | cons a as ih =>
    simp [conv, addL_sum, map_mul_sum, ih]
    ring

theorem conv_length (u v : List ℚ) (hu : u ≠ []) (hv : v ≠ []) :
    (conv u v).length = u.length + v.length - 1 := by
  induction u with
  | nil => exact absurd rfl hu
  | cons a as ih =>
    cases as with
    | nil =>
      cases v with
      | nil => exact absurd rfl hv
      | cons b bs => simp [conv, addL]
    | cons a2 as2 =>
      have hlen := ih (by simp)
      have hv1 : 1 ≤ v.length := by
        cases v with
        | nil => exact absurd rfl hv
        | cons b bs => simp
      -- length of addL is max of lengths
      have haddL : ∀ (xs ys : List ℚ), (addL xs ys).length = max xs.length ys.length := by
        intro xs
        induction xs with
        | nil => intro ys; simp [addL]
        | cons x xs ihx =>
          intro ys
          cases ys with
          | nil => simp [addL]
          | cons y ys => simp [addL, ihx, Nat.succ_max_succ]
      rw [conv, haddL]
      simp only [List.length_map, List.length_cons]
      rw [hlen]
      simp only [List.length_cons]
      omega

/-! ### Non-negativity and support bounds -/

/-- All entries of the list are non-negative. -/
def Nonneg (l : List ℚ) : Prop := ∀ q ∈ l, 0 ≤ q

theorem nonneg_nil : Nonneg [] := by intro q hq; simp at hq

theorem nonneg_cons {x : ℚ} {xs : List ℚ} (hx : 0 ≤ x) (hxs : Nonneg xs) :
    Nonneg (x :: xs) := by
  intro q hq
  rcases List.mem_cons.1 hq with h | h
  · exact h ▸ hx
  · exact hxs q h

theorem nonneg_addL {xs ys : List ℚ} (hx : Nonneg xs) (hy : Nonneg ys) :
    Nonneg (addL xs ys) := by
  induction xs generalizing ys with
  | nil => simpa [addL]
  | cons x xs ih =>
    cases ys with
    | nil => simpa [addL]
    | cons y ys =>
      refine nonneg_cons (add_nonneg (hx x (by simp)) (hy y (by simp))) ?_
      exact ih (fun q hq => hx q (by simp [hq])) (fun q hq => hy q (by simp [hq]))

theorem nonneg_map_mul {a : ℚ} {v : List ℚ} (ha : 0 ≤ a) (hv : Nonneg v) :
    Nonneg (v.map (fun q => a * q)) := by
  intro q hq
  rcases List.mem_map.1 hq with ⟨x, hx, rfl⟩
  exact mul_nonneg ha (hv x hx)

theorem nonneg_conv {u v : List ℚ} (hu : Nonneg u) (hv : Nonneg v) :
    Nonneg (conv u v) := by
  induction u with
  | nil => intro q hq; simp [conv] at hq
  | cons a as ih =>
    rw [conv]
    refine nonneg_addL (nonneg_map_mul (hu a (by simp)) hv) ?_
    exact nonneg_cons le_rfl (ih (fun q hq => hu q (by simp [hq])))

theorem nonneg_take {l : List ℚ} (h : Nonneg l) (n : ℕ) : Nonneg (l.take n) :=
  fun q hq => h q (List.mem_of_mem_take hq)

theorem nonneg_append {xs ys : List ℚ} (hx : Nonneg xs) (hy : Nonneg ys) :
    Nonneg (xs ++ ys) := by
  intro q hq
  rcases List.mem_append.1 hq with h | h
  · exact hx q h
  · exact hy q h

theorem nonneg_replicate_zero (n : ℕ) : Nonneg (List.replicate n (0 : ℚ)) := by
  intro q hq
  rw [List.eq_of_mem_replicate hq]

theorem nonneg_sum {l : List ℚ} (h : Nonneg l) : 0 ≤ l.sum :=
  List.sum_nonneg h

/-- `SuppLe L l`: all entries of `l` at positions `≥ L` are zero (with the
convention that out-of-range entries are zero). -/
def SuppLe (L : ℕ) (l : List ℚ) : Prop := ∀ i, L ≤ i → l.getD i 0 = 0

theorem suppLe_of_length (l : List ℚ) : SuppLe l.length l := by
  intro i hi
  exact List.getD_eq_default l 0 hi

theorem suppLe_mono {L L' : ℕ} {l : List ℚ} (h : L ≤ L') (hs : SuppLe L l) :
    SuppLe L' l := fun i hi => hs i (le_trans h hi)

theorem suppLe_conv {a b : ℕ} {u v : List ℚ}
    (hu : SuppLe (a + 1) u) (hv : SuppLe (b + 1) v) :
    SuppLe (a + b + 1) (conv u v) := by
  intro k hk
  rw [conv_getD]
  refine Finset.sum_eq_zero (fun i hi => ?_)
  simp only [Finset.mem_range] at hi
  by_cases hia : a + 1 ≤ i
  · rw [hu i hia, zero_mul]
  · have : b + 1 ≤ k - i := by omega
    rw [hv (k - i) this, mul_zero]

theorem take_getD (l : List ℚ) (M i : ℕ) :
    (l.take M).getD i 0 = if i < M then l.getD i 0 else 0 := by
  induction l generalizing M i with
  | nil => simp
  | cons x xs ih =>
    cases M with
    | zero => simp
    | succ M =>
      cases i with
      | zero => simp
      | succ i => simpa using ih M i

theorem suppLe_take {L : ℕ} {l : List ℚ} (h : SuppLe L l) (M : ℕ) :
    SuppLe L (l.take M) := by
  intro i hi
  rw [take_getD]
  split
  · exact h i hi
  · rfl

theorem suppLe_take_len (l : List ℚ) (M : ℕ) : SuppLe M (l.take M) := by
  intro i hi
  rw [take_getD]
  split
  · omega
  · rfl

theorem sum_eq_zero_of_suppLe_zero {l : List ℚ} (h : SuppLe 0 l) : l.sum = 0 := by
  induction l with
  | nil => rfl
  | cons x xs ih =>
    have hx : x = 0 := h 0 (Nat.zero_le 0)
    have hxs : SuppLe 0 xs := by
      intro i _
      have := h (i + 1) (Nat.zero_le _)
      simpa using this
    simp [hx, ih hxs]

theorem suppLe_cons_shift {L : ℕ} {x : ℚ} {xs : List ℚ}
    (h : SuppLe (L + 1) (x :: xs)) : SuppLe L xs := by
  intro i hi
  have := h (i + 1) (by omega)
  simpa using this

/-- If the support of `l` lies within the first `M` entries, truncation to
length `M` preserves the sum. -/
theorem sum_take_of_suppLe : ∀ (l : List ℚ) (M : ℕ), SuppLe M l → (l.take M).sum = l.sum := by
  intro l
  induction l with
  | nil => intro M _; simp
  | cons x xs ih =>
    intro M hM
    cases M with
    | zero => simp [sum_eq_zero_of_suppLe_zero hM]
    | succ M =>
      simp only [List.take_succ_cons, List.sum_cons]
      rw [ih M (suppLe_cons_shift hM)]

theorem sum_take_le : ∀ (l : List ℚ) (M : ℕ), Nonneg l → (l.take M).sum ≤ l.sum := by
  intro l
  induction l with
  | nil => intro M _; simp
  | cons x xs ih =>
    intro M hl
    cases M with
    | zero =>
      simpa using nonneg_sum hl
    | succ M =>
      simp only [List.take_succ_cons, List.sum_cons]
      have := ih M (fun q hq => hl q (by simp [hq]))
      exact add_le_add le_rfl this

/-! ### Dictionaries as association lists

Python dictionaries are modelled as association lists whose order is the
key order of `data_iso` (`self.data.keys()`); lookups return `Option` so
that a `KeyError` is observable as `none`. -/

/-- First-match lookup in an association list (Python `d[k]`). -/
def lookupV {α : Type} : List (String × α) → String → Option α
  | [], _ => none
  | (a, b) :: rest, k => if a = k then some b else lookupV rest k

/-- Lookup of an atom count in a parsed-formula dictionary. -/
def lookupA (d : List (String × ℕ)) (k : String) : Option ℕ := lookupV d k

/-- `d[k] += n` on an association list; `none` models a `KeyError`. -/
def bumpA : List (String × ℕ) → String → ℕ → Option (List (String × ℕ))
  | [], _, _ => none
  | (a, m) :: rest, k, n =>
    if a = k then some ((a, m + n) :: rest)
    else (bumpA rest k n).map (fun d => (a, m) :: d)

/-- The dictionary `dict((el, 0) for el in keys)`. -/
def allZero (keys : List String) : List (String × ℕ) := keys.map (fun el => (el, 0))

/-! ### Formula scanning

`parse_formula` builds the regex `(El1|El2|...)([0-9]{0,})` and walks the
formula with `re.findall`.  The scan below mirrors the leftmost, first
alternative, non-overlapping semantics of that call: at each position the
first key of the table that is a prefix of the remaining input matches,
followed by a greedy (possibly empty) run of digits. -/

/-- `listPre n h`: `n` is a prefix of `h` (character lists). -/
def listPre : List Char → List Char → Bool
  | [], _ => true
  | _ :: _, [] => false
  | a :: as, b :: bs => a = b && listPre as bs

/-- `containsSub n h`: `n` occurs as a contiguous substring of `h`
(the semantics of Python's `n in h` on strings). -/
def containsSub (needle : List Char) : List Char → Bool
  | [] => listPre needle []
  | c :: rest => listPre needle (c :: rest) || containsSub needle rest

/-- Numeric value of a digit string (`int(n)`). -/
def natOfDigits (l : List Char) : ℕ :=
  l.foldl (fun n c => n * 10 + (c.toNat - '0'.toNat)) 0

/-- Count captured by the digit group of one match: `1` when the group is
empty, otherwise the numeric value of the digits. -/
def mkCnt (digits : List Char) : ℕ := if digits.isEmpty then 1 else natOfDigits digits

/-- The digit run following a matched key in the remaining input. -/
def digitsAfter (klen : ℕ) (s : List Char) : List Char := (s.drop klen).takeWhile Char.isDigit

/-- Fuelled scanner; the fuel only serves to make the recursion
structural and is never exhausted when it starts at the input length,
since every recursive call strictly shortens the input. -/
def findMatchesF (keys : List String) : ℕ → List Char → List (String × ℕ)
  | 0, _ => []
  | _ + 1, [] => []
  | fuel + 1, c :: rest =>
    match keys.find? (fun k => listPre k.data (c :: rest)) with
    | none => findMatchesF keys fuel rest
    | some k =>
      if k.data.length + (digitsAfter k.data.length (c :: rest)).length = 0 then
        (k, mkCnt (digitsAfter k.data.length (c :: rest))) :: findMatchesF keys fuel rest
      else
        (k, mkCnt (digitsAfter k.data.length (c :: rest))) ::
          findMatchesF keys fuel
            ((c :: rest).drop (k.data.length + (digitsAfter k.data.length (c :: rest)).length))

/-- All regex matches of `(el1|el2|...)([0-9]{0,})` over `s`, in scan
order, with the captured count already interpreted (`1` when the digit
group is empty).  Mirrors `re.findall`: leftmost scan, first alternative
wins, advance past each (non-empty) match, advance one character on a
position without a match or with an empty match. -/
def findMatches (keys : List String) (s : List Char) : List (String × ℕ) :=
  findMatchesF keys s.length s

/-- `process.parse_formula`: returns the per-element atom counts of `f`
over the elements of the isotope table; `none` models a `KeyError`
(which, as proved below, never happens). -/
def parse_formula (data : List (String × List ℚ)) (f : String) : Option (List (String × ℕ)) :=
  let keys := data.map Prod.fst
  (findMatches keys f.data).foldl
    (fun od p => od.bind (fun d => bumpA d p.1 p.2)) (some (allZero keys))

/-! ### MDV builder -/

/-- `n`-fold repeated convolution with `v` (the loop
`for i in range(n): result = numpy.convolve(result, data[el])`). -/
def convN (r v : List ℚ) : ℕ → List ℚ
  | 0 => r
  | n + 1 => conv (convN r v n) v

/-- Table access `self.data[el]` (total on the runs we prove about). -/
def tblGet (data : List (String × List ℚ)) (el : String) : List ℚ :=
  (lookupV data el).getD []

/-- `process.calc_mdv`: mass distribution vector at natural abundance.
The metabolite loop skips the tracer `el_cor` and the excluded element
`el_excluded` (`if el not in [self.el_cor, self.el_excluded]`); the
derivative loop convolves every element with no exclusion. -/
def calc_mdv (data : List (String × List ℚ)) (el_cor el_excluded : String)
    (dm dd : List (String × ℕ)) : List ℚ :=
  let step1 := dm.foldl
    (fun r p => if p.1 = el_cor ∨ p.1 = el_excluded then r
                else convN r (tblGet data p.1) p.2) [1]
  dd.foldl (fun r p => convN r (tblGet data p.1) p.2) step1

/-- The natural-abundance MDV as described by the specification: `[1.0]`
convolved `n_e` times with `T[e]` for each metabolite element except the
tracer (which is always skipped), and `n_e` times with `T[e]` for every
derivative element, tracer included. -/
def mdvSpec (data : List (String × List ℚ)) (el_cor : String)
    (dm dd : List (String × ℕ)) : List ℚ :=
  let step1 := dm.foldl
    (fun r p => if p.1 = el_cor then r else convN r (tblGet data p.1) p.2) [1]
  dd.foldl (fun r p => convN r (tblGet data p.1) p.2) step1

/-! ### Correction matrix, solver interface, post-processing -/

/-- A rational extended with the IEEE infinity used by the source for the
initial value of `self.residuum` (`[float('inf')]`). -/
inductive QInf where
  | val (q : ℚ)
  | inf
  deriving DecidableEq, Repr

/-- Caller-visible error kinds of the correction pipeline. -/
inductive ErrKind where
  | MeasurementTooShort
  | FragmentTooSmall
  | TracerAbsent
  | PurityShapeMismatch
  | PuritySumInvalid
  deriving DecidableEq, Repr

/-- The observables of a `process` run that reaches the computation branch
(`if not self.err`). -/
structure POk where
  mid : List ℚ
  residuum : List QInf
  enr : Option ℚ
  matrixCols : List (List ℚ)
  xRaw : List ℚ
  nAtom : ℕ
  deriving DecidableEq, Repr

/-- The three validation checks inside `process.__init__`, with the
source's last-assignment-wins semantics on `self.err`: the measured-length
check, then the fragment-size check, then the tracer-presence check (a
substring test on the formula string), each overwriting `self.err`. -/
def checksErr (m_size c_size nA inc : ℕ) (el_cor mf : String) : Option ErrKind :=
  let e1 := if m_size < nA * inc + 1 then some ErrKind.MeasurementTooShort else none
  let e2 := if c_size + nA * inc < m_size then some ErrKind.FragmentTooSmall else e1
  if containsSub el_cor.data mf.data then e2 else some ErrKind.TracerAbsent

/-- Right-padding of the correction vector with zeros up to the measured
length (`correction_vector += [0.]*(m_size-c_size)`). -/
def mkBase (cv : List ℚ) (m : ℕ) : List ℚ :=
  if cv.length < m then cv ++ List.replicate (m - cv.length) 0 else cv

/-- The columns of the correction matrix: column `i` is the padded
correction vector truncated to `m`, convolved `i` times with the purity
vector and — unless the excluded element is the tracer — `nA - i` times
with the tracer's natural-abundance vector, truncating to `m` after every
convolution. -/
def buildCols (base : List ℚ) (m nA : ℕ) (excl : Bool) (el_pur tvec : List ℚ) :
    List (List ℚ) :=
  (List.range (nA + 1)).map (fun i =>
    let c1 := (fun c => (conv c el_pur).take m)^[i] (base.take m)
    if excl then c1 else (fun c => (conv c tvec).take m)^[nA - i] c1)

/-- `numpy.dot(correction_matrix, mid)` with the matrix given by columns:
entry `k` is `∑ j, A k j * x j`. -/
def matVecCols (m : ℕ) (cols : List (List ℚ)) (x : List ℚ) : List ℚ :=
  (List.range m).map (fun k => ((cols.zip x).map (fun p => p.1.getD k 0 * p.2)).sum)

/-- Pointwise subtraction of equally long vectors. -/
def subL (u w : List ℚ) : List ℚ := List.zipWith (fun a b => a - b) u w

/-- `sum(p*i for i,p in enumerate(l))`. -/
def enumSum (l : List ℚ) : ℚ := (l.enum.map (fun p => (p.1 : ℚ) * p.2)).sum

/-- The tail of `process.__init__` after the solver call: residual,
normalization of `mid` and of the residuum (both skipped when the
respective sum is zero, leaving the initial values `[]` and `[inf]`), and
optional mean enrichment from the normalized `mid`. -/
def postProc (cols : List (List ℚ)) (v x : List ℚ) (cme : Bool) (nA : ℕ) : POk :=
  let resi := subL v (matVecCols v.length cols x)
  let midN := if x.sum = 0 then [] else x.map (fun p => p / x.sum)
  let residuum := if v.sum = 0 then [QInf.inf]
                  else resi.map (fun q => QInf.val (q / v.sum))
  let enr := if cme then some (enumSum midN / (nA : ℚ)) else none
  ⟨midN, residuum, enr, cols, x, nA⟩

/-- A solver is any function from the correction-matrix columns and the
measured vector to a coefficient vector; the scipy L-BFGS-B call is
external to the repository and enters only through this parameter. -/
def Solver : Type := List (List ℚ) → List ℚ → List ℚ

/-- `process.__init__`: the full correction pipeline of the `process`
class, from raw inputs to the observables.  `none` models an uncaught
`KeyError` (tracer element missing from the isotope table). -/
def process (solve : Solver) (data : List (String × List ℚ)) (v_measured : List ℚ)
    (meta_form der_form : String) (calc_mean_enr : Bool) (el_excluded : String)
    (el_pur : List ℚ) (el_cor : String) : Option (Except ErrKind POk) :=
  match lookupV data el_cor with
  | none => none
  | some tvec =>
    match parse_formula data meta_form, parse_formula data der_form with
    | some dm, some dd =>
      match lookupA dm el_cor with
      | none => none
      | some nA =>
        let inc := tvec.length - 1
        let cv := calc_mdv data el_cor el_excluded dm dd
        match checksErr v_measured.length cv.length nA inc el_cor meta_form with
        | some e => some (Except.error e)
        | none =>
          let cols := buildCols (mkBase cv v_measured.length) v_measured.length nA
            (el_excluded == el_cor) el_pur tvec
          some (Except.ok (postProc cols v_measured (solve cols v_measured) calc_mean_enr nA))
    | _, _ => none

/-- The element excluded from the metabolite moiety, as set by the GUI:
the tracer itself when natural-abundance correction of the tracer is
switched off, the empty string otherwise. -/
def exStr (exclude_tracer_natab : Bool) (el_cor : String) : String :=
  if exclude_tracer_natab then el_cor else ""

/-- The `correct` facade: the purity-vector checks performed by
`gui.cmd_correction` (shape first, then exact sum) followed by the
`process` pipeline with `el_excluded` derived from the
`exclude_tracer_natab` choice. -/
def correct (solve : Solver) (data : List (String × List ℚ)) (v_measured : List ℚ)
    (meta_form der_form : String) (calc_mean_enr exclude_tracer_natab : Bool)
    (el_pur : List ℚ) (el_cor : String) : Option (Except ErrKind POk) :=
  match lookupV data el_cor with
  | none => none
  | some tvec =>
    if el_pur.length ≠ tvec.length then some (Except.error ErrKind.PurityShapeMismatch)
    else if el_pur.sum ≠ 1 then some (Except.error ErrKind.PuritySumInvalid)
    else process solve data v_measured meta_form der_form calc_mean_enr
      (exStr exclude_tracer_natab el_cor) el_pur el_cor

/-- The error reported by a run, if any. -/
def reportedErr (o : Option (Except ErrKind POk)) : Option ErrKind :=
  match o with
  | some (Except.error e) => some e
  | _ => none

/-- The successful result of a run, if any. -/
def okPart (o : Option (Except ErrKind POk)) : Option POk :=
  match o with
  | some (Except.ok r) => some r
  | _ => none

/-! ### Solver contract (modelled from the spec) -/

/-- Dot product of two equally long vectors. -/
def dotL (u w : List ℚ) : List ℚ := List.zipWith (fun a b => a * b) u w

/-- The gradient returned by `process.cost_function`:
`numpy.dot(mat_cor.transpose(), v - A x) * -2`. -/
def gradF (cols : List (List ℚ)) (v x : List ℚ) : List ℚ :=
  let e := subL v (matVecCols v.length cols x)
  cols.map (fun colj => (-2) * (dotL colj e).sum)

/-- Modelled from the spec: the stationarity contract of the NNLS solver
(§4.4), for the scipy `optimize.fmin_l_bfgs_b` call, which is external to
the repository.  `x` is feasible (entry-wise non-negative) and for every
coordinate either `x i = 0` and the gradient is non-negative, or `x i > 0`
and the gradient vanishes. -/
def nnlsStationary (cols : List (List ℚ)) (v x : List ℚ) : Bool :=
  (x.zip (gradF cols v x)).all (fun p =>
    decide (0 ≤ p.1) &&
      ((decide (p.1 = 0) && decide (0 ≤ p.2)) || (decide (0 < p.1) && decide (p.2 = 0))))

/-- A degenerate solver that always returns the zero vector (used for runs
whose claim-relevant observables do not depend on the solver output). -/
def zeroSolve : Solver := fun cols _ => List.replicate cols.length 0

/-- A concrete solver used for the scaling counterexample: on the two
measured vectors of interest it returns the exact non-negative
least-squares optimum (verified against `nnlsStationary` below), and the
zero vector elsewhere. -/
def cexSolve : Solver := fun cols v =>
  if v = [1, 0] then [1, 0]
  else if v = [2, 0] then [2, 0]
  else List.replicate cols.length 0

/-! ### Specification-side definitions used to state the claims -/

/-- Right-pad with zeros or truncate to length `M` (§4.3 step 1). -/
def padTrunc (M : ℕ) (l : List ℚ) : List ℚ :=
  (l ++ List.replicate (M - l.length) 0).take M

/-- Column `j` of the correction matrix as described by the claim: the MDV
padded/truncated to length `M`, convolved with the purity vector exactly
`j` times truncating to length `M` after each convolution, and, when
`exclude_tracer_natab` is false, further convolved with the tracer
natural-abundance vector exactly `n - j` times with the same truncation
policy. -/
def specColumn (mdv tvec el_pur : List ℚ) (M n j : ℕ)
    (exclude_tracer_natab : Bool) : List ℚ :=
  let c1 := (fun c => (conv c el_pur).take M)^[j] (padTrunc M mdv)
  if exclude_tracer_natab then c1 else (fun c => (conv c tvec).take M)^[n - j] c1

/-- The first failing check in the order actually realized by the source:
purity shape, purity sum (both in the GUI, before `process` runs), tracer
presence (substring test), measured-length lower bound, fragment-size
upper bound. -/
def specOrderErr (data : List (String × List ℚ)) (v : List ℚ)
    (mf df : String) (exclude_tracer_natab : Bool) (el_pur : List ℚ)
    (el_cor : String) : Option ErrKind :=
  let tvec := (lookupV data el_cor).getD []
  let dm := (parse_formula data mf).getD []
  let dd := (parse_formula data df).getD []
  let nA := (lookupA dm el_cor).getD 0
  let inc := tvec.length - 1
  let cv := calc_mdv data el_cor (exStr exclude_tracer_natab el_cor) dm dd
  if el_pur.length ≠ tvec.length then some ErrKind.PurityShapeMismatch
  else if el_pur.sum ≠ 1 then some ErrKind.PuritySumInvalid
  else if ¬ containsSub el_cor.data mf.data then some ErrKind.TracerAbsent
  else if v.length < nA * inc + 1 then some ErrKind.MeasurementTooShort
  else if cv.length + nA * inc < v.length then some ErrKind.FragmentTooSmall
  else none

/-! ### Lemmas about lookups and the formula scanner -/

theorem lookupV_isSome_of_mem {α : Type} {d : List (String × α)} {el : String}
    (h : el ∈ d.map Prod.fst) : (lookupV d el).isSome := by
  induction d with
  | nil => simp at h
  | cons ab rest ih =>
    obtain ⟨a, b⟩ := ab
    by_cases hae : a = el
    · simp [lookupV, hae]
    · simp only [List.map_cons, List.mem_cons] at h
      rcases h with h | h
      · exact absurd h.symm hae
      · simpa [lookupV, hae] using ih h

theorem lookupV_mem {α : Type} {d : List (String × α)} {k : String} {b : α}
    (h : lookupV d k = some b) : (k, b) ∈ d := by
  induction d with
  | nil => simp [lookupV] at h
  | cons ab rest ih =>
    obtain ⟨a, b2⟩ := ab
    by_cases hak : a = k
    · subst hak
      have h2 : b2 = b := by simpa [lookupV] using h
      subst h2
      simp
    · simp only [lookupV, if_neg hak] at h
      simp [ih h]

theorem mem_of_lookupV_eq_some {α : Type} {d : List (String × α)} {k : String} {b : α}
    (h : lookupV d k = some b) : k ∈ d.map Prod.fst := by
  have := lookupV_mem h
  exact List.mem_map.2 ⟨(k, b), this, rfl⟩

theorem containsSub_of_listPre {n s : List Char} (h : listPre n s = true) :
    containsSub n s = true := by
  cases s with
  | nil => simpa [containsSub] using h
  | cons c rest => simp [containsSub, h]

theorem containsSub_cons {n : List Char} (c : Char) {rest : List Char}
    (h : containsSub n rest = true) : containsSub n (c :: rest) = true := by
  simp [containsSub, h]

theorem containsSub_drop {n : List Char} : ∀ {s : List Char} (m : ℕ),
    containsSub n (s.drop m) = true → containsSub n s = true := by
  intro s
  induction s with
  | nil => intro m h; simpa using h
  | cons c rest ih =>
    intro m h
    cases m with
    | zero => simpa using h
    | succ m => exact containsSub_cons c (ih m h)

/-- Every pair produced by the scanner carries a key of the table that
occurs as a substring of the scanned input. -/
theorem findMatchesF_sound (keys : List String) :
    ∀ (fuel : ℕ) (s : List Char),
      ∀ p ∈ findMatchesF keys fuel s, p.1 ∈ keys ∧ containsSub p.1.data s = true := by
  intro fuel
  induction fuel with
  | zero =>
    intro s p hp
    simp [findMatchesF] at hp
  | succ fuel ihn =>
    intro s p hp
    cases s with
    | nil => simp [findMatchesF] at hp
    | cons c rest =>
      cases hfind : keys.find? (fun k => listPre k.data (c :: rest)) with
      | none =>
        simp only [findMatchesF, hfind] at hp
        have hr := ihn rest p hp
        exact ⟨hr.1, containsSub_cons c hr.2⟩
      | some k =>
        have hkmem : k ∈ keys := List.mem_of_find?_eq_some hfind
        have hkpre : listPre k.data (c :: rest) = true := by
          have := List.find?_some hfind
          simpa using this
        simp only [findMatchesF, hfind] at hp
        by_cases hlen : k.data.length + (digitsAfter k.data.length (c :: rest)).length = 0
        · rw [if_pos hlen] at hp
          rcases List.mem_cons.1 hp with rfl | hp3
          · exact ⟨hkmem, containsSub_of_listPre hkpre⟩
          · have hr := ihn rest p hp3
            exact ⟨hr.1, containsSub_cons c hr.2⟩
        · rw [if_neg hlen] at hp
          rcases List.mem_cons.1 hp with rfl | hp3
          · exact ⟨hkmem, containsSub_of_listPre hkpre⟩
          · have hr := ihn ((c :: rest).drop
                (k.data.length + (digitsAfter k.data.length (c :: rest)).length)) p hp3
            exact ⟨hr.1, containsSub_drop _ hr.2⟩

theorem findMatches_sound (keys : List String) (s : List Char) :
    ∀ p ∈ findMatches keys s, p.1 ∈ keys ∧ containsSub p.1.data s = true :=
  findMatchesF_sound keys s.length s

theorem allZero_keys (keys : List String) : (allZero keys).map Prod.fst = keys := by
  simp [allZero, List.map_map]
  exact List.map_id keys

theorem lookupA_allZero {keys : List String} {el : String} (h : el ∈ keys) :
    lookupA (allZero keys) el = some 0 := by
  induction keys with
  | nil => simp at h
  | cons a rest ih =>
    by_cases hae : a = el
    · simp [allZero, lookupA, lookupV, hae]
    · have hm : el ∈ rest := by
        rcases List.mem_cons.1 h with h1 | h1
        · exact absurd h1.symm hae
        · exact h1
      simpa [allZero, lookupA, lookupV, hae] using ih hm

theorem bumpA_spec (d : List (String × ℕ)) (k : String) (n : ℕ)
    (h : k ∈ d.map Prod.fst) :
    ∃ d2, bumpA d k n = some d2 ∧ d2.map Prod.fst = d.map Prod.fst ∧
      ∀ el, el ≠ k → lookupA d2 el = lookupA d el := by
  induction d with
  | nil => simp at h
  | cons ab rest ih =>
    obtain ⟨a, b⟩ := ab
    by_cases hak : a = k
    · subst hak
      refine ⟨(a, b + n) :: rest, by simp [bumpA], by simp, ?_⟩
      intro el hel
      have hne : ¬ a = el := fun hc => hel (hc.symm)
      simp [lookupA, lookupV, hne]
    · have hk2 : k ∈ rest.map Prod.fst := by
        simp only [List.map_cons, List.mem_cons] at h
        rcases h with h1 | h1
        · exact absurd h1.symm hak
        · exact h1
      obtain ⟨d2, hd2, hkeys, hlook⟩ := ih hk2
      refine ⟨(a, b) :: d2, by simp [bumpA, hak, hd2], by simp [hkeys], ?_⟩
      intro el hel
      by_cases hae : a = el
      · simp [lookupA, lookupV, hae]
      · simpa [lookupA, lookupV, hae] using hlook el hel

theorem foldBump_spec : ∀ (ms : List (String × ℕ)) (d : List (String × ℕ)),
    (∀ p ∈ ms, p.1 ∈ d.map Prod.fst) →
    ∃ d2, ms.foldl (fun od p => od.bind (fun d0 => bumpA d0 p.1 p.2)) (some d) = some d2 ∧
      d2.map Prod.fst = d.map Prod.fst ∧
      ∀ el, (∀ q ∈ ms, q.1 ≠ el) → lookupA d2 el = lookupA d el := by
  intro ms
  induction ms with
  | nil =>
    intro d _
    exact ⟨d, rfl, rfl, fun el _ => rfl⟩
  | cons p ms ih =>
    intro d hmem
    obtain ⟨d1, hd1, hkeys1, hlook1⟩ := bumpA_spec d p.1 p.2 (hmem p (by simp))
    obtain ⟨d2, hd2, hkeys2, hlook2⟩ := ih d1 (fun q hq => by
      rw [hkeys1]
      exact hmem q (by simp [hq]))
    refine ⟨d2, ?_, by rw [hkeys2, hkeys1], ?_⟩
    · simpa [List.foldl_cons, hd1] using hd2
    · intro el hel
      rw [hlook2 el (fun q hq => hel q (by simp [hq])),
        hlook1 el (Ne.symm (hel p (by simp)))]

/-- Totality and shape of `parse_formula`: it always succeeds, its key set
(in order) is exactly the key set of the isotope table, and every element
whose symbol does not occur in the formula string keeps count `0`. -/
theorem parse_formula_spec (data : List (String × List ℚ)) (f : String) :
    ∃ d, parse_formula data f = some d ∧
      d.map Prod.fst = data.map Prod.fst ∧
      ∀ el, el ∈ data.map Prod.fst → containsSub el.data f.data = false →
        lookupA d el = some 0 := by
  obtain ⟨d2, hfold, hkeys, hlook⟩ :=
    foldBump_spec (findMatches (data.map Prod.fst) f.data) (allZero (data.map Prod.fst))
      (fun p hp => by
        rw [allZero_keys]
        exact (findMatches_sound _ _ p hp).1)
  refine ⟨d2, ?_, ?_, ?_⟩
  · simpa [parse_formula] using hfold
  · rw [hkeys, allZero_keys]
  · intro el hel hsub
    rw [hlook el ?_]
    · exact lookupA_allZero hel
    · intro p hp hpe
      have hs := (findMatches_sound _ _ p hp).2
      rw [hpe, hsub] at hs
      exact Bool.noConfusion hs

theorem parse_formula_isSome (data : List (String × List ℚ)) (f : String) :
    (parse_formula data f).isSome := by
  obtain ⟨d, hd, -, -⟩ := parse_formula_spec data f
  simp [hd]

theorem parse_formula_empty (data : List (String × List ℚ)) :
    parse_formula data "" = some (allZero (data.map Prod.fst)) := by
  simp [parse_formula, findMatches, findMatchesF]

/-! ### Normalization of the MDV -/

/-- Validity of the isotope table: every abundance vector is entry-wise
non-negative and sums to one. -/
def TableNorm (data : List (String × List ℚ)) : Prop :=
  ∀ p ∈ data, Nonneg p.2 ∧ p.2.sum = 1

theorem tblGet_norm {data : List (String × List ℚ)} {el : String}
    (htn : TableNorm data) (h : el ∈ data.map Prod.fst) :
    Nonneg (tblGet data el) ∧ (tblGet data el).sum = 1 := by
  obtain ⟨v, hv⟩ := Option.isSome_iff_exists.1 (lookupV_isSome_of_mem h)
  have := htn (el, v) (lookupV_mem hv)
  simpa [tblGet, hv] using this

theorem convN_norm {r v : List ℚ} (n : ℕ) (hr : Nonneg r) (hrs : r.sum = 1)
    (hv : Nonneg v) (hvs : v.sum = 1) :
    Nonneg (convN r v n) ∧ (convN r v n).sum = 1 := by
  induction n with
  | zero => exact ⟨hr, hrs⟩
  | succ n ih =>
    refine ⟨nonneg_conv ih.1 hv, ?_⟩
    simp only [convN]
    rw [conv_sum, ih.2, hvs, one_mul]

theorem foldl_conv_norm (data : List (String × List ℚ)) (htn : TableNorm data)
    (f : List ℚ → String × ℕ → List ℚ) :
    ∀ (l : List (String × ℕ)) (init : List ℚ),
      (∀ r p, p ∈ l → f r p = r ∨
        (f r p = convN r (tblGet data p.1) p.2 ∧ p.1 ∈ data.map Prod.fst)) →
      Nonneg init → init.sum = 1 →
      Nonneg (l.foldl f init) ∧ (l.foldl f init).sum = 1 := by
  intro l
  induction l with
  | nil => intro init _ h1 h2; exact ⟨h1, h2⟩
  | cons p l ih =>
    intro init hf h1 h2
    rw [List.foldl_cons]
    rcases hf init p (by simp) with hcase | ⟨hcase, hmem⟩
    · rw [hcase]
      exact ih init (fun r q hq => hf r q (by simp [hq])) h1 h2
    · rw [hcase]
      obtain ⟨hv, hvs⟩ := tblGet_norm htn hmem
      obtain ⟨hn1, hn2⟩ := convN_norm p.2 h1 h2 hv hvs
      exact ih _ (fun r q hq => hf r q (by simp [hq])) hn1 hn2

/-- The natural-abundance MDV is entry-wise non-negative and sums to one
(exactly, in rational arithmetic), provided the isotope table is valid and
the atom-count dictionaries only mention table elements. -/
theorem calc_mdv_norm (data : List (String × List ℚ)) (el_cor el_ex : String)
    (dm dd : List (String × ℕ)) (htn : TableNorm data)
    (hdm : ∀ p ∈ dm, p.1 ∈ data.map Prod.fst)
    (hdd : ∀ p ∈ dd, p.1 ∈ data.map Prod.fst) :
    Nonneg (calc_mdv data el_cor el_ex dm dd) ∧
      (calc_mdv data el_cor el_ex dm dd).sum = 1 := by
  unfold calc_mdv
  have hinit : Nonneg [(1 : ℚ)] ∧ List.sum [(1 : ℚ)] = 1 := by
    constructor
    · intro q hq
      simp at hq
      simp [hq]
    · simp
  have step1 := foldl_conv_norm data htn
    (fun r p => if p.1 = el_cor ∨ p.1 = el_ex then r else convN r (tblGet data p.1) p.2)
    dm [1]
    (fun r p hp => by
      by_cases hc : p.1 = el_cor ∨ p.1 = el_ex
      · left; simp [hc]
      · right; exact ⟨by simp [hc], hdm p hp⟩)
    hinit.1 hinit.2
  exact foldl_conv_norm data htn
    (fun r p => convN r (tblGet data p.1) p.2) dd _
    (fun r p hp => Or.inr ⟨rfl, hdd p hp⟩) step1.1 step1.2

theorem foldl_congr_mem {α β : Type} (l : List α) (f g : β → α → β) :
    ∀ (init : β), (∀ b a, a ∈ l → f b a = g b a) →
      l.foldl f init = l.foldl g init := by
  induction l with
  | nil => intro init _; rfl
  | cons a l ih =>
    intro init h
    rw [List.foldl_cons, List.foldl_cons, h init a (by simp)]
    exact ih _ (fun b a2 ha => h b a2 (by simp [ha]))

/-- When the excluded element is the tracer itself or does not occur among
the metabolite keys, `calc_mdv` computes exactly the MDV described by the
specification (tracer skipped in the metabolite moiety, nothing else). -/
theorem calc_mdv_eq_mdvSpec (data : List (String × List ℚ)) (el_cor el_ex : String)
    (dm dd : List (String × ℕ))
    (h : el_ex = el_cor ∨ ∀ p ∈ dm, p.1 ≠ el_ex) :
    calc_mdv data el_cor el_ex dm dd = mdvSpec data el_cor dm dd := by
  unfold calc_mdv mdvSpec
  have hfold : dm.foldl
      (fun r p => if p.1 = el_cor ∨ p.1 = el_ex then r
                  else convN r (tblGet data p.1) p.2) [1]
      = dm.foldl
      (fun r p => if p.1 = el_cor then r else convN r (tblGet data p.1) p.2) [1] := by
    rcases h with rfl | h
    · exact foldl_congr_mem dm _ _ [1] (fun b a _ => by simp [or_self])
    · refine foldl_congr_mem dm _ _ [1] (fun b a ha => ?_)
      have := h a ha
      simp [or_iff_left this]
  rw [hfold]

/-! ### Run inversion and error characterization -/

/-- Inversion of a successful `correct` run: names all intermediate values
and expresses the result record through `postProc`. -/
theorem correct_ok_inv {solve : Solver} {data : List (String × List ℚ)}
    {v : List ℚ} {mf df : String} {cme ex : Bool} {p : List ℚ} {c : String} {r : POk}
    (h : correct solve data v mf df cme ex p c = some (Except.ok r)) :
    ∃ tvec dm dd nA,
      lookupV data c = some tvec ∧
      p.length = tvec.length ∧ p.sum = 1 ∧
      parse_formula data mf = some dm ∧
      parse_formula data df = some dd ∧
      lookupA dm c = some nA ∧
      checksErr v.length (calc_mdv data c (exStr ex c) dm dd).length nA
        (tvec.length - 1) c mf = none ∧
      r = postProc
        (buildCols (mkBase (calc_mdv data c (exStr ex c) dm dd) v.length) v.length nA
          (exStr ex c == c) p tvec) v
        (solve (buildCols (mkBase (calc_mdv data c (exStr ex c) dm dd) v.length) v.length nA
          (exStr ex c == c) p tvec) v) cme nA := by
  cases htv : lookupV data c with
  | none => rw [correct, htv] at h; exact absurd h (by simp)
  | some tvec =>
    obtain ⟨dm, hdm, hdmk, -⟩ := parse_formula_spec data mf
    obtain ⟨dd, hdd, -, -⟩ := parse_formula_spec data df
    have hcmem : c ∈ data.map Prod.fst := mem_of_lookupV_eq_some htv
    obtain ⟨nA, hnAeq⟩ := Option.isSome_iff_exists.1
      (lookupV_isSome_of_mem (α := ℕ) (hdmk ▸ hcmem))
    have hnA2 : lookupA dm c = some nA := hnAeq
    simp only [correct, process, htv, hdm, hdd, hnA2] at h
    split at h
    · exact absurd h (by simp)
    next hlen =>
      split at h
      · exact absurd h (by simp)
      next hsum =>
        split at h
        · exact absurd h (by simp)
        next hchk =>
          refine ⟨tvec, dm, dd, nA, rfl, not_ne_iff.1 hlen, not_ne_iff.1 hsum,
            hdm, hdd, hnA2, hchk, ?_⟩
          simpa using h.symm

/-- `reportedErr` through the `checksErr` dispatch. -/
theorem reportedErr_dispatch (o : Option ErrKind) (k : POk) :
    reportedErr (match o with
      | some e => some (Except.error e)
      | none => some (Except.ok k)) = o := by
  cases o <;> rfl

/-- `checksErr` (last assignment to `self.err` wins) computes the first
failing check in the order: tracer presence, measured-length lower bound,
fragment-size upper bound.  The two length checks are mutually exclusive,
which makes the two orders coincide. -/
theorem checksErr_eq_firstFail (m cl nA inc : ℕ) (c mf : String) :
    checksErr m cl nA inc c mf =
      (if ¬ containsSub c.data mf.data then some ErrKind.TracerAbsent
       else if m < nA * inc + 1 then some ErrKind.MeasurementTooShort
       else if cl + nA * inc < m then some ErrKind.FragmentTooSmall
       else none) := by
  unfold checksErr
  by_cases h3 : containsSub c.data mf.data
  · by_cases h4 : m < nA * inc + 1
    · by_cases h5 : cl + nA * inc < m
      · omega
      · simp [h3, h4, h5]
    · by_cases h5 : cl + nA * inc < m
      · simp [h3, h4, h5]
      · simp [h3, h4, h5]
  · simp [h3]

/-- The error reported by `correct` is the first failing check in the
realized order: purity shape, purity sum, tracer presence, measured
length, fragment size. -/
theorem reportedErr_eq_specOrder (solve : Solver) (data : List (String × List ℚ))
    (v : List ℚ) (mf df : String) (cme ex : Bool) (p : List ℚ) (c : String)
    (tvec : List ℚ) (htv : lookupV data c = some tvec) :
    reportedErr (correct solve data v mf df cme ex p c) =
      specOrderErr data v mf df ex p c := by
  obtain ⟨dm, hdm, hdmk, -⟩ := parse_formula_spec data mf
  obtain ⟨dd, hdd, -, -⟩ := parse_formula_spec data df
  have hcmem : c ∈ data.map Prod.fst := mem_of_lookupV_eq_some htv
  obtain ⟨nA, hnAeq⟩ := Option.isSome_iff_exists.1
    (lookupV_isSome_of_mem (α := ℕ) (hdmk ▸ hcmem))
  have hnA2 : lookupA dm c = some nA := hnAeq
  unfold specOrderErr
  simp only [correct, process, reportedErr, htv, hdm, hdd, hnA2, Option.getD_some]
  by_cases h1 : p.length ≠ tvec.length
  · simp [reportedErr, h1]
  · by_cases h2 : p.sum ≠ 1
    · simp [reportedErr, h1, h2]
    · rw [if_neg h1, if_neg h2, if_neg h1, if_neg h2, checksErr_eq_firstFail]
      by_cases h3 : containsSub c.data mf.data
      · by_cases h4 : v.length < nA * (tvec.length - 1) + 1
        · simp [h3, h4]
        · by_cases h5 : (calc_mdv data c (exStr ex c) dm dd).length +
              nA * (tvec.length - 1) < v.length
          · simp [h3, h4, h5]
          · simp [h3, h4, h5]
      · simp [h3]

/-! ### Post-processing lemmas -/

theorem postProc_zero_sums (cols : List (List ℚ)) (v x : List ℚ) (cme : Bool) (nA : ℕ)
    (hv : v.sum = 0) (hx : x.sum = 0) :
    (postProc cols v x cme nA).mid = [] ∧
      (postProc cols v x cme nA).residuum = [QInf.inf] ∧
      (postProc cols v x cme nA).enr = (if cme then some 0 else none) := by
  unfold postProc
  refine ⟨by simp [hx], by simp [hv], ?_⟩
  simp [hx, enumSum]

theorem zip_term_smul (cols : List (List ℚ)) (x : List ℚ) (α : ℚ) (k : ℕ) :
    ((cols.zip (x.map (fun q => α * q))).map (fun p => p.1.getD k 0 * p.2)).sum
      = α * ((cols.zip x).map (fun p => p.1.getD k 0 * p.2)).sum := by
  induction cols generalizing x with
  | nil => simp
  | cons colh colt ih =>
    cases x with
    | nil => simp
    | cons xh xt =>
      simp only [List.map_cons, List.zip_cons_cons, List.sum_cons, ih xt]
      ring

theorem matVecCols_smul (m : ℕ) (cols : List (List ℚ)) (x : List ℚ) (α : ℚ) :
    matVecCols m cols (x.map (fun q => α * q)) =
      (matVecCols m cols x).map (fun q => α * q) := by
  unfold matVecCols
  rw [List.map_map]
  refine List.map_congr_left (fun k _ => ?_)
  simp only [Function.comp_apply]
  exact zip_term_smul cols x α k

theorem subL_smul (v w : List ℚ) (α : ℚ) :
    subL (v.map (fun q => α * q)) (w.map (fun q => α * q)) =
      (subL v w).map (fun q => α * q) := by
  induction v generalizing w with
  | nil => simp [subL]
  | cons a as ih =>
    cases w with
    | nil => simp [subL]
    | cons b bs =>
      simp only [List.map_cons, subL, List.zipWith_cons_cons, List.cons.injEq]
      exact ⟨by ring, ih bs⟩

theorem postProc_mid (cols : List (List ℚ)) (v x : List ℚ) (cme : Bool) (nA : ℕ) :
    (postProc cols v x cme nA).mid =
      (if x.sum = 0 then [] else x.map (fun p => p / x.sum)) := rfl

theorem postProc_residuum (cols : List (List ℚ)) (v x : List ℚ) (cme : Bool) (nA : ℕ) :
    (postProc cols v x cme nA).residuum =
      (if v.sum = 0 then [QInf.inf]
       else (subL v (matVecCols v.length cols x)).map (fun q => QInf.val (q / v.sum))) := rfl

theorem postProc_enr (cols : List (List ℚ)) (v x : List ℚ) (cme : Bool) (nA : ℕ) :
    (postProc cols v x cme nA).enr =
      (if cme then some (enumSum ((postProc cols v x cme nA).mid) / (nA : ℚ))
       else none) := rfl

theorem postProc_xRaw (cols : List (List ℚ)) (v x : List ℚ) (cme : Bool) (nA : ℕ) :
    (postProc cols v x cme nA).xRaw = x := rfl

theorem postProc_matrixCols (cols : List (List ℚ)) (v x : List ℚ) (cme : Bool) (nA : ℕ) :
    (postProc cols v x cme nA).matrixCols = cols := rfl

theorem postProc_nAtom (cols : List (List ℚ)) (v x : List ℚ) (cme : Bool) (nA : ℕ) :
    (postProc cols v x cme nA).nAtom = nA := rfl

/-- Scaling the measured vector and the raw solution by the same positive
factor leaves the normalized distribution, the mean enrichment, and the
normalized residuum unchanged. -/
theorem postProc_smul (cols : List (List ℚ)) (v x : List ℚ) (cme : Bool) (nA : ℕ)
    (α : ℚ) (hα : α ≠ 0) :
    (postProc cols (v.map (fun q => α * q)) (x.map (fun q => α * q)) cme nA).mid
        = (postProc cols v x cme nA).mid ∧
      (postProc cols (v.map (fun q => α * q)) (x.map (fun q => α * q)) cme nA).enr
        = (postProc cols v x cme nA).enr ∧
      (v.sum ≠ 0 →
        (postProc cols (v.map (fun q => α * q)) (x.map (fun q => α * q)) cme nA).residuum
          = (postProc cols v x cme nA).residuum) := by
  have hsx : (x.map (fun q => α * q)).sum = α * x.sum := map_mul_sum α x
  have hsv : (v.map (fun q => α * q)).sum = α * v.sum := map_mul_sum α v
  have hmid : (postProc cols (v.map (fun q => α * q)) (x.map (fun q => α * q)) cme nA).mid
      = (postProc cols v x cme nA).mid := by
    rw [postProc_mid, postProc_mid]
    by_cases hx0 : x.sum = 0
    · simp [hx0, hsx]
    · have hax : α * x.sum ≠ 0 := mul_ne_zero hα hx0
      rw [if_neg (by rw [hsx]; exact hax), if_neg hx0]
      simp only [List.map_map, hsx]
      refine List.map_congr_left (fun q _ => ?_)
      simp only [Function.comp_apply]
      exact mul_div_mul_left q x.sum hα
  refine ⟨hmid, ?_, ?_⟩
  · rw [postProc_enr, postProc_enr, hmid]
  · intro hv0
    rw [postProc_residuum, postProc_residuum]
    have hav : α * v.sum ≠ 0 := mul_ne_zero hα hv0
    rw [if_neg (by rw [hsv]; exact hav), if_neg hv0]
    rw [List.length_map, matVecCols_smul, subL_smul, List.map_map]
    refine List.map_congr_left (fun q _ => ?_)
    simp only [Function.comp_apply, hsv]
    rw [mul_div_mul_left q v.sum hα]

/-! ### Matrix-column lemmas -/

theorem buildCols_length (base : List ℚ) (m nA : ℕ) (excl : Bool) (p t : List ℚ) :
    (buildCols base m nA excl p t).length = nA + 1 := by
  simp [buildCols]

theorem buildCols_getD (base : List ℚ) (m nA : ℕ) (excl : Bool) (p t : List ℚ)
    (j : ℕ) (hj : j < nA + 1) :
    (buildCols base m nA excl p t).getD j [] =
      (if excl then (fun c => (conv c p).take m)^[j] (base.take m)
       else (fun c => (conv c t).take m)^[nA - j]
        ((fun c => (conv c p).take m)^[j] (base.take m))) := by
  unfold buildCols
  rw [List.getD_eq_getElem?_getD, List.getElem?_map, List.getElem?_range hj]
  rfl

theorem mkBase_take (cv : List ℚ) (m : ℕ) : (mkBase cv m).take m = padTrunc m cv := by
  unfold mkBase padTrunc
  by_cases h : cv.length < m
  · rw [if_pos h]
  · rw [if_neg h]
    have h0 : m - cv.length = 0 := by omega
    rw [h0]
    simp

theorem replicate_zero_getD (n i : ℕ) : (List.replicate n (0 : ℚ)).getD i 0 = 0 := by
  induction n generalizing i with
  | zero => simp
  | succ n ih =>
    cases i with
    | zero => simp
    | succ i => simpa using ih i

theorem getD_append_replicate (l : List ℚ) (n i : ℕ) :
    (l ++ List.replicate n (0 : ℚ)).getD i 0 = l.getD i 0 := by
  induction l generalizing i with
  | nil => simpa using replicate_zero_getD n i
  | cons x xs ih =>
    cases i with
    | zero => simp
    | succ i => simpa using ih i

theorem suppLe_mkBase (cv : List ℚ) (m : ℕ) : SuppLe cv.length (mkBase cv m) := by
  unfold mkBase
  split
  · intro i hi
    rw [getD_append_replicate]
    exact suppLe_of_length cv i hi
  · exact suppLe_of_length cv

theorem mkBase_sum (cv : List ℚ) (m : ℕ) : (mkBase cv m).sum = cv.sum := by
  unfold mkBase
  split
  · simp [List.sum_append, List.sum_replicate]
  · rfl

theorem nonneg_mkBase {cv : List ℚ} (h : Nonneg cv) (m : ℕ) : Nonneg (mkBase cv m) := by
  unfold mkBase
  split
  · exact nonneg_append h (nonneg_replicate_zero _)
  · exact h

/-! ### Column-sum invariants under truncated convolution -/

theorem iter_conv_take_le (w : List ℚ) (M : ℕ) (hw : Nonneg w) (hws : w.sum = 1) :
    ∀ (s : ℕ) (cl : List ℚ), Nonneg cl → cl.sum ≤ 1 →
      Nonneg ((fun c => (conv c w).take M)^[s] cl) ∧
        ((fun c => (conv c w).take M)^[s] cl).sum ≤ 1 := by
  intro s
  induction s with
  | zero => exact fun cl h1 h2 => ⟨h1, h2⟩
  | succ s ih =>
    intro cl h1 h2
    rw [Function.iterate_succ_apply']
    obtain ⟨ha, hb⟩ := ih cl h1 h2
    refine ⟨nonneg_take (nonneg_conv ha hw) M, ?_⟩
    calc ((conv ((fun c => (conv c w).take M)^[s] cl) w).take M).sum
        ≤ (conv ((fun c => (conv c w).take M)^[s] cl) w).sum :=
          sum_take_le _ M (nonneg_conv ha hw)
      _ = ((fun c => (conv c w).take M)^[s] cl).sum * w.sum := conv_sum _ w
      _ = ((fun c => (conv c w).take M)^[s] cl).sum := by rw [hws, mul_one]
      _ ≤ 1 := hb

theorem iter_conv_take_eq (w : List ℚ) (M k : ℕ) (hwlen : w.length = k + 1)
    (hw : Nonneg w) (hws : w.sum = 1) :
    ∀ (s : ℕ) (L : ℕ) (cl : List ℚ), Nonneg cl → cl.sum = 1 → SuppLe (L + 1) cl →
      L + s * k + 1 ≤ M →
      Nonneg ((fun c => (conv c w).take M)^[s] cl) ∧
        ((fun c => (conv c w).take M)^[s] cl).sum = 1 ∧
        SuppLe (L + s * k + 1) ((fun c => (conv c w).take M)^[s] cl) := by
  intro s
  induction s with
  | zero =>
    intro L cl h1 h2 h3 _
    simpa using ⟨h1, h2, h3⟩
  | succ s ih =>
    intro L cl h1 h2 h3 hM
    have hM2 : L + s * k + 1 ≤ M := by
      have : s * k ≤ (s + 1) * k := Nat.mul_le_mul_right k (by omega)
      omega
    obtain ⟨ha, hb, hc⟩ := ih L cl h1 h2 h3 hM2
    rw [Function.iterate_succ_apply']
    have hwsupp : SuppLe (k + 1) w := hwlen ▸ suppLe_of_length w
    have hconv_supp : SuppLe (L + s * k + k + 1)
        (conv ((fun c => (conv c w).take M)^[s] cl) w) := suppLe_conv hc hwsupp
    have hidx : L + s * k + k + 1 = L + (s + 1) * k + 1 := by
      rw [Nat.succ_mul]
      ring
    rw [hidx] at hconv_supp
    have hle : L + (s + 1) * k + 1 ≤ M := hM
    have hsum : ((conv ((fun c => (conv c w).take M)^[s] cl) w).take M).sum = 1 := by
      rw [sum_take_of_suppLe _ M (suppLe_mono hle hconv_supp), conv_sum, hb, hws, mul_one]
    exact ⟨nonneg_take (nonneg_conv ha hw) M, hsum, suppLe_take hconv_supp M⟩

/-! ### Concrete instances used by witnesses and counterexamples -/

set_option maxRecDepth 8000

/-- A one-element isotope table (a two-isotope tracer element). -/
def tbl1 : List (String × List ℚ) := [("C", [1/2, 1/2])]

/-- A two-element isotope table. -/
def tbl2 : List (String × List ℚ) := [("C", [1/2, 1/2]), ("H", [1])]

theorem tableNorm_tbl1 : TableNorm tbl1 := by
  intro p hp
  simp only [tbl1, List.mem_singleton] at hp
  subst hp
  refine ⟨?_, by norm_num⟩
  intro q hq
  simp at hq
  rcases hq with rfl | rfl <;> norm_num

theorem tableNorm_tbl2 : TableNorm tbl2 := by
  intro p hp
  simp only [tbl2, List.mem_cons, List.not_mem_nil, or_false] at hp
  rcases hp with rfl | rfl
  · refine ⟨?_, by norm_num⟩
    intro q hq
    simp at hq
    rcases hq with rfl | rfl <;> norm_num
  · refine ⟨?_, by norm_num⟩
    intro q hq
    simp at hq
    subst hq
    norm_num

/-! ### Claim theorems -/

/-- C10: formula parsing always returns normally; the key set of the
result is exactly the element set of the isotope table (so the subsequent
lookup of the tracer count is total), and every element whose symbol does
not occur in the input string is assigned count `0`. -/
theorem C10_parse_formula_total (data : List (String × List ℚ)) (f : String) :
    ∃ d, parse_formula data f = some d ∧
      d.map Prod.fst = data.map Prod.fst ∧
      (∀ el, el ∈ data.map Prod.fst → (lookupA d el).isSome) ∧
      (∀ el, el ∈ data.map Prod.fst → containsSub el.data f.data = false →
        lookupA d el = some 0) := by
  obtain ⟨d, h1, h2, h3⟩ := parse_formula_spec data f
  exact ⟨d, h1, h2, fun el hel => lookupV_isSome_of_mem (h2.symm ▸ hel), h3⟩

theorem C10_witness :
    ∃ d, parse_formula tbl2 "O2Si" = some d ∧
      lookupA d "C" = some 0 ∧ (lookupA d "H").isSome ∧
      d.map Prod.fst = ["C", "H"] := by
  obtain ⟨d, h1, h2, h3, h4⟩ := C10_parse_formula_total tbl2 "O2Si"
  refine ⟨d, h1, h4 "C" (by decide) (by decide), h3 "H" (by decide), ?_⟩
  rw [h2]
  decide

/-- C5 counterexample: parsing does not fail on a token that matches no
element of the table, nor on trailing unconsumable input; it returns the
all-zero mapping over the table's elements (not the empty mapping) for the
empty string. -/
theorem C5_counterexample :
    parse_formula tbl2 "Xq3" = some [("C", 0), ("H", 0)] ∧
      parse_formula tbl2 "C2qq" = some [("C", 2), ("H", 0)] ∧
      parse_formula tbl2 "" = some [("C", 0), ("H", 0)] := by
  refine ⟨by decide, by decide, by decide⟩

/-- C5 (amended): formula parsing never fails: input that does not match
any element of the isotope table is skipped, and the empty string yields
the mapping assigning `0` to every element of the table. -/
theorem C5_parse_never_fails (data : List (String × List ℚ)) (f : String) :
    (parse_formula data f).isSome ∧
      parse_formula data "" = some ((data.map Prod.fst).map (fun el => (el, 0))) :=
  ⟨parse_formula_isSome data f, parse_formula_empty data⟩

/-- C2: the natural-abundance MDV is `[1.0]` convolved `n_e` times with
`T[e]` for every metabolite element other than the tracer (always skipped
in the metabolite moiety) and `n_e` times with `T[e]` for every derivative
element including the tracer; the result is entry-wise non-negative and
sums to one.  `el_ex` ranges over the two values the facade passes
(the tracer itself, or a string that is no metabolite key). -/
theorem C2_mdv_correct (data : List (String × List ℚ)) (el_cor el_ex : String)
    (dm dd : List (String × ℕ)) (htn : TableNorm data)
    (hex : el_ex = el_cor ∨ ∀ p ∈ dm, p.1 ≠ el_ex)
    (hdm : ∀ p ∈ dm, p.1 ∈ data.map Prod.fst)
    (hdd : ∀ p ∈ dd, p.1 ∈ data.map Prod.fst) :
    calc_mdv data el_cor el_ex dm dd = mdvSpec data el_cor dm dd ∧
      Nonneg (calc_mdv data el_cor el_ex dm dd) ∧
      (calc_mdv data el_cor el_ex dm dd).sum = 1 :=
  ⟨calc_mdv_eq_mdvSpec data el_cor el_ex dm dd hex,
    (calc_mdv_norm data el_cor el_ex dm dd htn hdm hdd).1,
    (calc_mdv_norm data el_cor el_ex dm dd htn hdm hdd).2⟩

theorem C2_witness :
    calc_mdv tbl2 "C" "" [("C", 2), ("H", 3)] [("C", 1), ("H", 0)]
        = mdvSpec tbl2 "C" [("C", 2), ("H", 3)] [("C", 1), ("H", 0)] ∧
      Nonneg (calc_mdv tbl2 "C" "" [("C", 2), ("H", 3)] [("C", 1), ("H", 0)]) ∧
      (calc_mdv tbl2 "C" "" [("C", 2), ("H", 3)] [("C", 1), ("H", 0)]).sum = 1 :=
  C2_mdv_correct tbl2 "C" "" [("C", 2), ("H", 3)] [("C", 1), ("H", 0)]
    tableNorm_tbl2 (Or.inr (by decide)) (by decide) (by decide)

/-- C7 counterexample: on an input where the purity sum is invalid and the
tracer is simultaneously absent from the metabolite formula, the reported
error is `PuritySumInvalid` (the purity checks run first, in the GUI), not
`TracerAbsent` as the claimed order (tracer presence before purity) would
demand. -/
theorem C7_counterexample :
    reportedErr (correct zeroSolve tbl2 [1] "H" "" false false [2, 0] "C")
        = some ErrKind.PuritySumInvalid ∧
      containsSub "C".data "H".data = false ∧
      some ErrKind.PuritySumInvalid ≠ some ErrKind.TracerAbsent := by
  refine ⟨?_, by decide, by decide⟩
  norm_num [correct, process, tbl2, lookupV, reportedErr]

/-- C7 (amended): the validation checks short-circuit deterministically in
the order purity shape, purity sum, tracer presence (a substring test),
measured-length lower bound, fragment-size upper bound; there is no
element/formula-validity check because parsing never fails.  The reported
error is that of the earliest failing check in this order. -/
theorem C7_check_order (solve : Solver) (data : List (String × List ℚ))
    (v : List ℚ) (mf df : String) (cme ex : Bool) (p : List ℚ) (c : String)
    (tvec : List ℚ) (htv : lookupV data c = some tvec) :
    reportedErr (correct solve data v mf df cme ex p c) =
      specOrderErr data v mf df ex p c :=
  reportedErr_eq_specOrder solve data v mf df cme ex p c tvec htv

theorem C7_witness :
    reportedErr (correct zeroSolve tbl2 [1] "H2O" "" false false [0, 1] "C") =
      specOrderErr tbl2 [1] "H2O" "" false [0, 1] "C" :=
  C7_check_order zeroSolve tbl2 [1] "H2O" "" false false [0, 1] "C" [1/2, 1/2] rfl

/-- C4 counterexample: for the formula string `"C0"` the parsed count of
the tracer `C` is `0` (so the tracer does not occur with count ≥ 1), yet
no `TracerAbsent` error is reported — the source only checks that the
tracer symbol is a substring of the formula string. -/
theorem C4_counterexample :
    lookupA ((parse_formula tbl2 "C0").getD []) "C" = some 0 ∧
      reportedErr (correct zeroSolve tbl2 [1] "C0" "" false true [0, 1] "C") = none := by
  refine ⟨by decide, ?_⟩
  norm_num +decide [correct, process, tbl2, lookupV, parse_formula, findMatches, findMatchesF,
    allZero, bumpA, lookupA, listPre, digitsAfter, mkCnt, natOfDigits, calc_mdv, convN,
    checksErr, containsSub, mkBase, buildCols, conv, addL, matVecCols, subL, enumSum,
    postProc, zeroSolve, exStr, tblGet, reportedErr, List.replicate, List.range_succ,
    Function.iterate_succ_apply', Function.iterate_zero, Function.iterate_one,
    List.enum, List.enumFrom]

/-- C4 (amended): given that the purity checks pass, `TracerAbsent` is
reported exactly when the tracer element's symbol does not occur as a
substring of the metabolite formula string; the parsed atom count of the
tracer is irrelevant to this check. -/
theorem C4_tracer_substring (solve : Solver) (data : List (String × List ℚ))
    (v : List ℚ) (mf df : String) (cme ex : Bool) (p : List ℚ) (c : String)
    (tvec : List ℚ) (htv : lookupV data c = some tvec)
    (hlen : p.length = tvec.length) (hsum : p.sum = 1) :
    (reportedErr (correct solve data v mf df cme ex p c) = some ErrKind.TracerAbsent ↔
      containsSub c.data mf.data = false) := by
  rw [reportedErr_eq_specOrder solve data v mf df cme ex p c tvec htv]
  unfold specOrderErr
  rw [htv]
  simp only [Option.getD_some]
  rw [if_neg (not_ne_iff.2 hlen), if_neg (not_ne_iff.2 hsum)]
  by_cases h3 : containsSub c.data mf.data
  · rw [if_neg (by simp [h3])]
    simp only [h3]
    split_ifs <;> simp
  · rw [if_pos (by simp [h3])]
    simp [h3]

theorem C4_witness :
    reportedErr (correct zeroSolve tbl2 [1] "H" "" false false [0, 1] "C")
      = some ErrKind.TracerAbsent := by
  rw [C4_tracer_substring zeroSolve tbl2 [1] "H" "" false false [0, 1] "C" [1/2, 1/2]
    rfl rfl (by norm_num)]
  decide

/-- C6 counterexample: a purity vector whose sum deviates from 1 by only
`1e-10` (well within the claimed `1e-9` tolerance) is rejected with
`PuritySumInvalid`, because the source compares the sum with 1 exactly. -/
theorem C6_counterexample :
    reportedErr (correct zeroSolve tbl1 [1, 0] "C" "" false true
        [1/2, 1/2 + 1/10000000000] "C") = some ErrKind.PuritySumInvalid ∧
      |([1/2, 1/2 + 1/10000000000] : List ℚ).sum - 1| ≤ 1/1000000000 := by
  constructor
  · norm_num [correct, process, tbl1, lookupV, reportedErr]
  · rw [show ([1/2, 1/2 + 1/10000000000] : List ℚ).sum - 1 = 1/10000000000 by norm_num,
      abs_of_nonneg (by norm_num)]
    norm_num

/-- C6 (amended): given a purity vector of the right shape, it is rejected
with `PuritySumInvalid` exactly when its sum differs from 1 — the
comparison is exact, with no tolerance. -/
theorem C6_purity_sum_exact (solve : Solver) (data : List (String × List ℚ))
    (v : List ℚ) (mf df : String) (cme ex : Bool) (p : List ℚ) (c : String)
    (tvec : List ℚ) (htv : lookupV data c = some tvec)
    (hlen : p.length = tvec.length) :
    (reportedErr (correct solve data v mf df cme ex p c) = some ErrKind.PuritySumInvalid ↔
      p.sum ≠ 1) := by
  rw [reportedErr_eq_specOrder solve data v mf df cme ex p c tvec htv]
  unfold specOrderErr
  rw [htv]
  simp only [Option.getD_some]
  rw [if_neg (not_ne_iff.2 hlen)]
  by_cases h2 : p.sum ≠ 1
  · simp [h2]
  · rw [if_neg h2]
    simp only [h2, iff_false]
    split_ifs <;> simp
  
theorem C6_witness :
    reportedErr (correct zeroSolve tbl1 [1, 0] "C" "" false true [2, 0] "C")
      = some ErrKind.PuritySumInvalid := by
  rw [C6_purity_sum_exact zeroSolve tbl1 [1, 0] "C" "" false true [2, 0] "C" [1/2, 1/2]
    rfl rfl]
  norm_num

/-- C3 counterexample: on the all-zero measured vector the run completes
without error, but the returned isotopologue distribution is the empty
list (not a zero vector of length `n+1`), the residuum is the initial
sentinel `[inf]` (not a zero vector of length `M`), and the requested mean
enrichment is computed as `0` (not reported as absent). -/
theorem C3_counterexample :
    (okPart (correct zeroSolve tbl1 [0, 0] "C" "" true true [0, 1] "C")).map POk.residuum
        = some [QInf.inf] ∧
      some [QInf.inf] ≠ some [QInf.val 0, QInf.val 0] ∧
      (okPart (correct zeroSolve tbl1 [0, 0] "C" "" true true [0, 1] "C")).map POk.mid
        = some [] ∧
      some ([] : List ℚ) ≠ some [0, 0] ∧
      (okPart (correct zeroSolve tbl1 [0, 0] "C" "" true true [0, 1] "C")).map POk.enr
        = some (some 0) := by
  have hrun : correct zeroSolve tbl1 [0, 0] "C" "" true true [0, 1] "C"
      = some (Except.ok ⟨[], [QInf.inf], some 0, [[1, 0], [0, 1]], [0, 0], 1⟩) := by
    norm_num +decide [correct, process, tbl1, lookupV, parse_formula, findMatches,
      findMatchesF, allZero, bumpA, lookupA, listPre, digitsAfter, mkCnt, natOfDigits,
      calc_mdv, convN, checksErr, containsSub, mkBase, buildCols, conv, addL, matVecCols,
      subL, enumSum, postProc, zeroSolve, exStr, tblGet, List.replicate, List.range_succ,
      Function.iterate_succ_apply', Function.iterate_zero, Function.iterate_one,
      List.enum, List.enumFrom]
  rw [hrun]
  refine ⟨rfl, by decide, rfl, by decide, rfl⟩

/-- C3 (amended): for every error-free run on a measured vector summing to
zero, the solver is still invoked, the normalization steps are skipped,
and the results are: the empty distribution whenever the raw solver output
sums to zero, the sentinel residuum `[inf]`, and a mean enrichment of `0`
when requested. -/
theorem C3_zero_signal (solve : Solver) (data : List (String × List ℚ))
    (v : List ℚ) (mf df : String) (cme ex : Bool) (p : List ℚ) (c : String) (r : POk)
    (hr : correct solve data v mf df cme ex p c = some (Except.ok r))
    (hv : v.sum = 0) (hx : r.xRaw.sum = 0) :
    r.mid = [] ∧ r.residuum = [QInf.inf] ∧ r.enr = (if cme then some 0 else none) := by
  obtain ⟨tvec, dm, dd, nA, htv, hplen, hpsum, hdm, hdd, hnA, hchk, hres⟩ := correct_ok_inv hr
  rw [hres, postProc_xRaw] at hx
  rw [hres]
  exact postProc_zero_sums _ _ _ _ _ hv hx

theorem C3_witness :
    ∃ r, correct zeroSolve tbl1 [0, 0] "C" "" true true [0, 1] "C" = some (Except.ok r) ∧
      (r.mid = [] ∧ r.residuum = [QInf.inf] ∧ r.enr = (if true then some 0 else none)) := by
  have hrun : correct zeroSolve tbl1 [0, 0] "C" "" true true [0, 1] "C"
      = some (Except.ok ⟨[], [QInf.inf], some 0, [[1, 0], [0, 1]], [0, 0], 1⟩) := by
    norm_num +decide [correct, process, tbl1, lookupV, parse_formula, findMatches,
      findMatchesF, allZero, bumpA, lookupA, listPre, digitsAfter, mkCnt, natOfDigits,
      calc_mdv, convN, checksErr, containsSub, mkBase, buildCols, conv, addL, matVecCols,
      subL, enumSum, postProc, zeroSolve, exStr, tblGet, List.replicate, List.range_succ,
      Function.iterate_succ_apply', Function.iterate_zero, Function.iterate_one,
      List.enum, List.enumFrom]
  exact ⟨_, hrun,
    C3_zero_signal zeroSolve tbl1 [0, 0] "C" "" true true [0, 1] "C" _ hrun
      (by norm_num) (by norm_num)⟩

/-- C1: in every error-free run, column `j` (for `j ≤ n`) of the
correction matrix equals the natural-abundance MDV padded/truncated to
length `M`, convolved with the purity vector exactly `j` times truncating
to length `M` after each convolution, and — when `exclude_tracer_natab` is
false — further convolved with the tracer natural-abundance vector exactly
`n - j` times with the same truncation policy; when the flag is true, no
convolution with the tracer vector is applied. -/
theorem C1_matrix_columns (solve : Solver) (data : List (String × List ℚ))
    (v : List ℚ) (mf df : String) (cme ex : Bool) (p : List ℚ) (c : String) (r : POk)
    (tvec : List ℚ) (dm dd : List (String × ℕ)) (nA : ℕ)
    (hr : correct solve data v mf df cme ex p c = some (Except.ok r))
    (hcne : c ≠ "")
    (htv : lookupV data c = some tvec)
    (hdm : parse_formula data mf = some dm)
    (hdd : parse_formula data df = some dd)
    (hnA : lookupA dm c = some nA)
    (j : ℕ) (hj : j ≤ nA) :
    r.matrixCols.getD j [] =
      specColumn (calc_mdv data c (exStr ex c) dm dd) tvec p v.length nA j ex := by
  obtain ⟨tvec2, dm2, dd2, nA2, htv2, hplen, hpsum, hdm2, hdd2, hnA2, hchk, hres⟩ :=
    correct_ok_inv hr
  rw [htv] at htv2
  obtain rfl := Option.some.inj htv2
  rw [hdm] at hdm2
  obtain rfl := Option.some.inj hdm2
  rw [hdd] at hdd2
  obtain rfl := Option.some.inj hdd2
  rw [hnA] at hnA2
  obtain rfl := Option.some.inj hnA2
  rw [hres, postProc_matrixCols,
    buildCols_getD _ _ _ _ _ _ j (by omega), mkBase_take]
  have hflag : (exStr ex c == c) = ex := by
    cases ex
    · simp only [exStr, Bool.ite_eq_false]
      exact beq_eq_false_iff_ne.2 (Ne.symm hcne)
    · simp [exStr]
  rw [hflag]
  unfold specColumn
  cases ex <;> rfl

theorem C1_witness :
    ∃ r, correct cexSolve tbl2 [1, 0] "CH2" "" false false [0, 1] "C"
        = some (Except.ok r) ∧
      r.matrixCols.getD 1 [] =
        specColumn (calc_mdv tbl2 "C" (exStr false "C") [("C", 1), ("H", 2)]
          [("C", 0), ("H", 0)]) [1/2, 1/2] [0, 1] ([1, 0] : List ℚ).length 1 1 false := by
  have hrun : correct cexSolve tbl2 [1, 0] "CH2" "" false false [0, 1] "C"
      = some (Except.ok ⟨[1, 0], [QInf.val (1/2), QInf.val (-(1/2))], none,
          [[1/2, 1/2], [0, 1]], [1, 0], 1⟩) := by
    norm_num +decide [correct, process, tbl2, lookupV, parse_formula, findMatches,
      findMatchesF, allZero, bumpA, lookupA, listPre, digitsAfter, mkCnt, natOfDigits,
      calc_mdv, convN, checksErr, containsSub, mkBase, buildCols, conv, addL, matVecCols,
      subL, enumSum, postProc, cexSolve, exStr, tblGet, List.replicate, List.range_succ,
      Function.iterate_succ_apply', Function.iterate_zero, Function.iterate_one,
      List.enum, List.enumFrom]
  exact ⟨_, hrun,
    C1_matrix_columns cexSolve tbl2 [1, 0] "CH2" "" false false [0, 1] "C" _
      [1/2, 1/2] [("C", 1), ("H", 2)] [("C", 0), ("H", 0)] 1 hrun (by decide) rfl
      (by decide) (by decide) (by decide) 1 (by decide)⟩

/-- C8 counterexample: on a concrete input whose exact non-negative
least-squares optimum (checked against the stationarity contract of §4.4)
has a non-zero residual, doubling the measured vector leaves the returned
residuum unchanged — it does not scale by `α = 2`, because the source
normalizes the residual by `Σ v`. -/
theorem C8_counterexample :
    nnlsStationary [[1/2, 1/2], [0, 1]] [1, 0] [1, 0] = true ∧
      nnlsStationary [[1/2, 1/2], [0, 1]] [2, 0] [2, 0] = true ∧
      (okPart (correct cexSolve tbl1 [2, 0] "C" "" true false [0, 1] "C")).map POk.residuum
        = some [QInf.val (1/2), QInf.val (-(1/2))] ∧
      (okPart (correct cexSolve tbl1 [1, 0] "C" "" true false [0, 1] "C")).map POk.residuum
        = some [QInf.val (1/2), QInf.val (-(1/2))] ∧
      ([QInf.val (1/2), QInf.val (-(1/2))] : List QInf) ≠
        [QInf.val (2 * (1/2)), QInf.val (2 * (-(1/2)))] := by
  refine ⟨?_, ?_, ?_, ?_, ?_⟩
  · norm_num +decide [nnlsStationary, gradF, dotL, subL, matVecCols, List.all,
      decide_eq_true_eq, List.range_succ]
  · norm_num +decide [nnlsStationary, gradF, dotL, subL, matVecCols, List.all,
      decide_eq_true_eq, List.range_succ]
  · norm_num +decide [correct, process, tbl1, lookupV, parse_formula, findMatches,
      findMatchesF, allZero, bumpA, lookupA, listPre, digitsAfter, mkCnt, natOfDigits,
      calc_mdv, convN, checksErr, containsSub, mkBase, buildCols, conv, addL, matVecCols,
      subL, enumSum, postProc, cexSolve, exStr, tblGet, okPart, List.replicate,
      List.range_succ, Function.iterate_succ_apply', Function.iterate_zero,
      Function.iterate_one, List.enum, List.enumFrom]
  · norm_num +decide [correct, process, tbl1, lookupV, parse_formula, findMatches,
      findMatchesF, allZero, bumpA, lookupA, listPre, digitsAfter, mkCnt, natOfDigits,
      calc_mdv, convN, checksErr, containsSub, mkBase, buildCols, conv, addL, matVecCols,
      subL, enumSum, postProc, cexSolve, exStr, tblGet, okPart, List.replicate,
      List.range_succ, Function.iterate_succ_apply', Function.iterate_zero,
      Function.iterate_one, List.enum, List.enumFrom]
  · norm_num

/-- C8 (amended): for any solver that is positively homogeneous on the
instance (as any solver meeting the stationarity contract of §4.4 is, at
a unique optimum), scaling the measured vector by `α > 0` leaves the
returned distribution, the mean enrichment, and also the returned
residuum (which the source normalizes by `Σ v`) unchanged — the residuum
does not scale by `α`. -/
theorem C8_rescaling (solve : Solver) (data : List (String × List ℚ))
    (v : List ℚ) (mf df : String) (cme ex : Bool) (p : List ℚ) (c : String)
    (α : ℚ) (r r2 : POk)
    (hα : 0 < α)
    (hr : correct solve data v mf df cme ex p c = some (Except.ok r))
    (hr2 : correct solve data (v.map (fun q => α * q)) mf df cme ex p c
      = some (Except.ok r2))
    (hx : r2.xRaw = r.xRaw.map (fun q => α * q))
    (hvs : v.sum ≠ 0) :
    r2.mid = r.mid ∧ r2.enr = r.enr ∧ r2.residuum = r.residuum := by
  obtain ⟨tvec, dm, dd, nA, htv, hplen, hpsum, hdm, hdd, hnA, hchk, hres⟩ :=
    correct_ok_inv hr
  obtain ⟨tvec2, dm2, dd2, nA2, htv2, hplen2, hpsum2, hdm2, hdd2, hnA2, hchk2, hres2⟩ :=
    correct_ok_inv hr2
  rw [htv] at htv2
  obtain rfl := Option.some.inj htv2
  rw [hdm] at hdm2
  obtain rfl := Option.some.inj hdm2
  rw [hdd] at hdd2
  obtain rfl := Option.some.inj hdd2
  rw [hnA] at hnA2
  obtain rfl := Option.some.inj hnA2
  rw [List.length_map] at hres2
  rw [hres, postProc_xRaw] at hx
  rw [hres2, postProc_xRaw] at hx
  rw [hres, hres2, hx]
  have hps := postProc_smul
    (buildCols (mkBase (calc_mdv data c (exStr ex c) dm dd) v.length) v.length nA
      (exStr ex c == c) p tvec) v
    (solve (buildCols (mkBase (calc_mdv data c (exStr ex c) dm dd) v.length) v.length nA
      (exStr ex c == c) p tvec) v) cme nA α (ne_of_gt hα)
  exact ⟨hps.1, hps.2.1, hps.2.2 hvs⟩

theorem C8_witness :
    ∃ r r2, correct cexSolve tbl1 [1, 0] "C" "" true false [0, 1] "C"
        = some (Except.ok r) ∧
      correct cexSolve tbl1 ([1, 0].map (fun q => (2 : ℚ) * q)) "C" "" true false [0, 1] "C"
        = some (Except.ok r2) ∧
      r2.xRaw = r.xRaw.map (fun q => (2 : ℚ) * q) ∧
      r2.mid = r.mid ∧ r2.enr = r.enr ∧ r2.residuum = r.residuum := by
  have h1 : correct cexSolve tbl1 [1, 0] "C" "" true false [0, 1] "C"
      = some (Except.ok ⟨[1, 0], [QInf.val (1/2), QInf.val (-(1/2))], some 0,
          [[1/2, 1/2], [0, 1]], [1, 0], 1⟩) := by
    norm_num +decide [correct, process, tbl1, lookupV, parse_formula, findMatches,
      findMatchesF, allZero, bumpA, lookupA, listPre, digitsAfter, mkCnt, natOfDigits,
      calc_mdv, convN, checksErr, containsSub, mkBase, buildCols, conv, addL, matVecCols,
      subL, enumSum, postProc, cexSolve, exStr, tblGet, List.replicate, List.range_succ,
      Function.iterate_succ_apply', Function.iterate_zero, Function.iterate_one,
      List.enum, List.enumFrom]
  have h2 : correct cexSolve tbl1 ([1, 0].map (fun q => (2 : ℚ) * q)) "C" "" true false
      [0, 1] "C"
      = some (Except.ok ⟨[1, 0], [QInf.val (1/2), QInf.val (-(1/2))], some 0,
          [[1/2, 1/2], [0, 1]], [2, 0], 1⟩) := by
    norm_num +decide [correct, process, tbl1, lookupV, parse_formula, findMatches,
      findMatchesF, allZero, bumpA, lookupA, listPre, digitsAfter, mkCnt, natOfDigits,
      calc_mdv, convN, checksErr, containsSub, mkBase, buildCols, conv, addL, matVecCols,
      subL, enumSum, postProc, cexSolve, exStr, tblGet, List.replicate, List.range_succ,
      Function.iterate_succ_apply', Function.iterate_zero, Function.iterate_one,
      List.enum, List.enumFrom]
  refine ⟨_, _, h1, h2, by norm_num, ?_⟩
  exact C8_rescaling cexSolve tbl1 [1, 0] "C" "" true false [0, 1] "C" 2 _ _
    (by norm_num) h1 h2 (by norm_num) (by norm_num)

/-- Column sums of the correction matrix: at most one, and exactly one
when the measured window is long enough that no truncation discards
mass. -/
theorem buildCols_sum (cv p tvec : List ℚ) (M nA : ℕ) (excl : Bool) (j : ℕ)
    (hj : j < nA + 1)
    (hcv_nn : Nonneg cv) (hcv_sum : cv.sum = 1)
    (hpn : Nonneg p) (hps : p.sum = 1) (hplen : p.length = tvec.length)
    (htn : Nonneg tvec) (hts : tvec.sum = 1) :
    ((buildCols (mkBase cv M) M nA excl p tvec).getD j []).sum ≤ 1 ∧
      (cv.length + nA * (tvec.length - 1) ≤ M →
        ((buildCols (mkBase cv M) M nA excl p tvec).getD j []).sum = 1) := by
  have htvne : tvec ≠ [] := by intro h0; rw [h0] at hts; simp at hts
  have htvlen : 1 ≤ tvec.length := List.length_pos.2 htvne
  have hcvne : cv ≠ [] := by intro h0; rw [h0] at hcv_sum; simp at hcv_sum
  have hcvlen : 1 ≤ cv.length := List.length_pos.2 hcvne
  rw [buildCols_getD _ _ _ _ _ _ j hj]
  have hb_nn : Nonneg (mkBase cv M) := nonneg_mkBase hcv_nn M
  have hb_sum : (mkBase cv M).sum = 1 := by rw [mkBase_sum]; exact hcv_sum
  have hb_supp : SuppLe cv.length (mkBase cv M) := suppLe_mkBase cv M
  have hc0_nn : Nonneg ((mkBase cv M).take M) := nonneg_take hb_nn M
  have hc0_le : ((mkBase cv M).take M).sum ≤ 1 := by
    calc ((mkBase cv M).take M).sum ≤ (mkBase cv M).sum := sum_take_le _ M hb_nn
      _ = 1 := hb_sum
  constructor
  · cases excl
    · rw [if_neg (by simp)]
      have h1 := iter_conv_take_le p M hpn hps j _ hc0_nn hc0_le
      exact (iter_conv_take_le tvec M htn hts (nA - j) _ h1.1 h1.2).2
    · rw [if_pos rfl]
      exact (iter_conv_take_le p M hpn hps j _ hc0_nn hc0_le).2
  · intro hM
    have hcvM : cv.length ≤ M := le_trans (Nat.le_add_right _ _) hM
    have hc0_sum : ((mkBase cv M).take M).sum = 1 := by
      rw [sum_take_of_suppLe _ M (suppLe_mono hcvM hb_supp)]
      exact hb_sum
    have hc0_supp : SuppLe ((cv.length - 1) + 1) ((mkBase cv M).take M) := by
      have he : (cv.length - 1) + 1 = cv.length := by omega
      rw [he]
      exact suppLe_take hb_supp M
    have hjb : (cv.length - 1) + j * (tvec.length - 1) + 1 ≤ M := by
      have hmul : j * (tvec.length - 1) ≤ nA * (tvec.length - 1) :=
        Nat.mul_le_mul_right _ (by omega)
      omega
    have hplen2 : p.length = (tvec.length - 1) + 1 := by rw [hplen]; omega
    have h1 := iter_conv_take_eq p M (tvec.length - 1) hplen2 hpn hps j
      (cv.length - 1) _ hc0_nn hc0_sum hc0_supp hjb
    cases excl
    · rw [if_neg (by simp)]
      have htlen2 : tvec.length = (tvec.length - 1) + 1 := by omega
      have hbound2 : ((cv.length - 1) + j * (tvec.length - 1)) +
          (nA - j) * (tvec.length - 1) + 1 ≤ M := by
        have hmm : j * (tvec.length - 1) + (nA - j) * (tvec.length - 1)
            = nA * (tvec.length - 1) := by
          rw [← Nat.add_mul]
          congr 1
          omega
        omega
      exact (iter_conv_take_eq tvec M (tvec.length - 1) htlen2 htn hts (nA - j)
        ((cv.length - 1) + j * (tvec.length - 1)) _ h1.1 h1.2.1 h1.2.2 hbound2).2.1
    · rw [if_pos rfl]
      exact h1.2.1

/-- C9: in every error-free run with a valid (non-negative, normalized)
isotope table and a non-negative purity vector, every column of the
correction matrix has sum at most 1, with equality whenever
`M ≥ len(mdv) + n·Δ` (`Δ = k_tracer - 1`), i.e. whenever no truncation
discards mass. -/
theorem C9_column_stochastic (solve : Solver) (data : List (String × List ℚ))
    (v : List ℚ) (mf df : String) (cme ex : Bool) (p : List ℚ) (c : String) (r : POk)
    (tvec : List ℚ) (dm dd : List (String × ℕ)) (nA : ℕ)
    (hr : correct solve data v mf df cme ex p c = some (Except.ok r))
    (htn : TableNorm data) (hpn : Nonneg p)
    (htv : lookupV data c = some tvec)
    (hdm : parse_formula data mf = some dm)
    (hdd : parse_formula data df = some dd)
    (hnA : lookupA dm c = some nA)
    (j : ℕ) (hj : j < nA + 1) :
    (r.matrixCols.getD j []).sum ≤ 1 ∧
      ((calc_mdv data c (exStr ex c) dm dd).length + nA * (tvec.length - 1) ≤ v.length →
        (r.matrixCols.getD j []).sum = 1) := by
  obtain ⟨tvec2, dm2, dd2, nA2, htv2, hplen, hpsum, hdm2, hdd2, hnA2, hchk, hres⟩ :=
    correct_ok_inv hr
  rw [htv] at htv2
  obtain rfl := Option.some.inj htv2
  rw [hdm] at hdm2
  obtain rfl := Option.some.inj hdm2
  rw [hdd] at hdd2
  obtain rfl := Option.some.inj hdd2
  rw [hnA] at hnA2
  obtain rfl := Option.some.inj hnA2
  obtain ⟨dmx, hdmx, hdmk, -⟩ := parse_formula_spec data mf
  rw [hdm] at hdmx
  obtain rfl := Option.some.inj hdmx
  obtain ⟨ddx, hddx, hddk, -⟩ := parse_formula_spec data df
  rw [hdd] at hddx
  obtain rfl := Option.some.inj hddx
  have hdmmem : ∀ q ∈ dm, q.1 ∈ data.map Prod.fst :=
    fun q hq => hdmk ▸ List.mem_map_of_mem Prod.fst hq
  have hddmem : ∀ q ∈ dd, q.1 ∈ data.map Prod.fst :=
    fun q hq => hddk ▸ List.mem_map_of_mem Prod.fst hq
  obtain ⟨hcv_nn, hcv_sum⟩ := calc_mdv_norm data c (exStr ex c) dm dd htn hdmmem hddmem
  have htv_pair := htn (c, tvec) (lookupV_mem htv)
  rw [hres, postProc_matrixCols]
  exact buildCols_sum (calc_mdv data c (exStr ex c) dm dd) p tvec v.length nA
    (exStr ex c == c) j hj hcv_nn hcv_sum hpn hpsum hplen htv_pair.1 htv_pair.2

theorem C9_witness :
    ∃ r, correct zeroSolve tbl1 [1, 0] "C" "" false false [0, 1] "C"
        = some (Except.ok r) ∧
      ((r.matrixCols.getD 0 []).sum ≤ 1 ∧
        ((calc_mdv tbl1 "C" (exStr false "C") [("C", 1)] [("C", 0)]).length +
            1 * (([1/2, 1/2] : List ℚ).length - 1) ≤ ([1, 0] : List ℚ).length →
          (r.matrixCols.getD 0 []).sum = 1)) := by
  have hrun : correct zeroSolve tbl1 [1, 0] "C" "" false false [0, 1] "C"
      = some (Except.ok ⟨[], [QInf.val 1, QInf.val 0], none,
          [[1/2, 1/2], [0, 1]], [0, 0], 1⟩) := by
    norm_num +decide [correct, process, tbl1, lookupV, parse_formula, findMatches,
      findMatchesF, allZero, bumpA, lookupA, listPre, digitsAfter, mkCnt, natOfDigits,
      calc_mdv, convN, checksErr, containsSub, mkBase, buildCols, conv, addL, matVecCols,
      subL, enumSum, postProc, zeroSolve, exStr, tblGet, List.replicate, List.range_succ,
      Function.iterate_succ_apply', Function.iterate_zero, Function.iterate_one,
      List.enum, List.enumFrom]
  refine ⟨_, hrun, ?_⟩
  exact C9_column_stochastic zeroSolve tbl1 [1, 0] "C" "" false false [0, 1] "C" _
    [1/2, 1/2] [("C", 1)] [("C", 0)] 1 hrun tableNorm_tbl1
    (by intro q hq; simp at hq; rcases hq with rfl | rfl <;> norm_num)
    rfl (by decide) (by decide) (by decide) 0 (by decide)
